import Mathlib

/-!
Verification of the staffing-allocation engine (`src/utils.py`, `src/app.py`):
a shallow embedding of the column resolver, the long-to-wide pivot, the
future-state derivation, the utilization recompute, the rate-card lookup,
the margin computation and the undo-history layer, together with theorems
settling the specification's claims about them.

Numeric cells are modelled as rationals (`Rat`); pandas timestamps are
modelled by the integer day difference `(date - today).days`; a missing
value (`NaN` / `NaT`) is `Option.none`.
-/

namespace Staffing

/-- Sum of a list of rationals (models pandas `.sum()` over numeric cells). -/
def ratSum : List Rat → Rat
  | [] => 0
  | x :: xs => x + ratSum xs

/-- Positional cell access into a numeric column, 0 outside the range
(pandas columns always have exactly one value per row). -/
def ratGet : List Rat → Nat → Rat
  | [], _ => 0
  | x :: _, 0 => x
  | _ :: xs, n + 1 => ratGet xs n

/-- Positional cell access into a string column, empty outside the range. -/
def strGet : List String → Nat → String
  | [], _ => ""
  | x :: _, 0 => x
  | _ :: xs, n + 1 => strGet xs n

/-- Auxiliary builder for `tabulate`. -/
def tabulateAux (f : Nat → Rat) : Nat → Nat → List Rat
  | _, 0 => []
  | s, m + 1 => f s :: tabulateAux f (s + 1) m

/-- Column of `n` cells whose `i`-th entry is `f i` (models building a
pandas Series row by row). -/
def tabulate (n : Nat) (f : Nat → Rat) : List Rat :=
  tabulateAux f 0 n

theorem length_tabulateAux (f : Nat → Rat) (s m : Nat) :
    (tabulateAux f s m).length = m := by
  induction m generalizing s with
  | zero => rfl
  | succ m ih => simp [tabulateAux, ih]

theorem ratGet_tabulateAux (f : Nat → Rat) (s m i : Nat) (hi : i < m) :
    ratGet (tabulateAux f s m) i = f (s + i) := by
  induction m generalizing s i with
  | zero => omega
  | succ m ih =>
    cases i with
    | zero => simp [tabulateAux, ratGet]
    | succ i =>
      have h : i < m := by omega
      simp only [tabulateAux, ratGet]
      rw [ih (s + 1) i h]
      congr 1
      omega

theorem ratGet_tabulate (n : Nat) (f : Nat → Rat) (i : Nat) (hi : i < n) :
    ratGet (tabulate n f) i = f i := by
  have := ratGet_tabulateAux f 0 n i hi
  simpa [tabulate] using this

theorem tabulateAux_congr (f g : Nat → Rat) (h : ∀ i, f i = g i) (s m : Nat) :
    tabulateAux f s m = tabulateAux g s m := by
  induction m generalizing s with
  | zero => rfl
  | succ m ih => simp [tabulateAux, h, ih]

theorem tabulate_congr (n : Nat) (f g : Nat → Rat) (h : ∀ i, f i = g i) :
    tabulate n f = tabulate n g :=
  tabulateAux_congr f g h 0 n

/-- One character-aligned comparison step of the substring test:
`ns` is an initial segment of `hs`. -/
def leadSeg : List Char → List Char → Bool
  | [], _ => true
  | _ :: _, [] => false
  | n :: ns, h :: hs => n == h && leadSeg ns hs

/-- Substring test on character lists (models Python `needle in hay`). -/
def subList (ns : List Char) : List Char → Bool
  | [] => ns.isEmpty
  | h :: t => leadSeg ns (h :: t) || subList ns t

/-- Python `needle in hay` on strings: case-sensitive substring containment. -/
def strContainsSub (needle hay : String) : Bool :=
  subList needle.toList hay.toList

/-- Python `s.strip()`: surrounding whitespace removed, on character lists. -/
def trimChars (l : List Char) : List Char :=
  ((l.dropWhile Char.isWhitespace).reverse.dropWhile Char.isWhitespace).reverse

/-- Python `str(col).strip().lower()`, as a character list. -/
def lowerKey (s : String) : List Char :=
  (trimChars s.toList).map Char.toLower

/-- Python `str(role_name).strip().upper()`, as a character list. -/
def upperKey (s : String) : List Char :=
  (trimChars s.toList).map Char.toUpper

/-- Rounding of a rational to the nearest integer, ties to even: the
behaviour of numpy / pandas `Series.round(0)` (and of Python `round`). -/
def roundHalfEven (q : Rat) : Int :=
  let n : Int := q.num.fdiv (q.den : Int)
  let frac : Rat := q - (n : Rat)
  if frac < 1 / 2 then n
  else if 1 / 2 < frac then n + 1
  else if n % 2 = 0 then n else n + 1

/-- Values held by one pandas column: a numeric dtype or an object/string
dtype (the only two the engine distinguishes, via `select_dtypes`). -/
inductive ColVals where
  | num (vals : List Rat)
  | strs (vals : List String)
deriving DecidableEq

/-- One named column of a data frame. -/
structure Col where
  name : String
  vals : ColVals
deriving DecidableEq

/-- A pandas DataFrame as the engine sees it: an index of employee names
and a list of named columns. -/
structure Frame where
  index : List String
  cols : List Col
deriving DecidableEq

/-- Whether a column has numeric dtype (`select_dtypes(include=[number])`). -/
def Col.isNum (c : Col) : Bool :=
  match c.vals with
  | .num _ => true
  | .strs _ => false

/-- Cell of a column at row `i`; 0 for a non-numeric column. -/
def colCell (c : Col) (i : Nat) : Rat :=
  match c.vals with
  | .num l => ratGet l i
  | .strs _ => 0

/-- Pandas `df.empty`: true when either axis has length 0. -/
def Frame.isEmpty (f : Frame) : Bool :=
  f.index.isEmpty || f.cols.isEmpty

/-- Python `name in df.columns`. -/
def Frame.hasCol (f : Frame) (n : String) : Bool :=
  f.cols.any (fun c => c.name == n)

/-- The column names excluded from the allocation sum:
`exclude = [Capacity, Current Hours to Target]` in the source. -/
def utilExclude : List String :=
  ["Capacity", "Current Hours to Target"]

/-- The generalized program columns:
`[c for c in df.select_dtypes(include=[number]).columns if c not in exclude]`. -/
def progColsOf (f : Frame) : List Col :=
  f.cols.filter (fun c => c.isNum && !(utilExclude.contains c.name))

/-- Per-row allocation total: `df[prog_cols].sum(axis=1)` at row `i`. -/
def totalHours (f : Frame) (i : Nat) : Rat :=
  ratSum ((progColsOf f).map (fun c => colCell c i))

/-- Values of the first column named `n`, when it is numeric. -/
def numColVals (f : Frame) (n : String) : List Rat :=
  match f.cols.find? (fun c => c.name == n) with
  | some c =>
    match c.vals with
    | .num l => l
    | .strs _ => []
  | none => []

/-- Row `i`'s capacity cell: `x[Capacity]` in the recompute lambda. -/
def capAt (f : Frame) (i : Nat) : Rat :=
  ratGet (numColVals f "Capacity") i

/-- Insertion of a column at a given position: `df.insert(loc, ...)`. -/
def insertAt : Nat → Col → List Col → List Col
  | 0, a, l => a :: l
  | _ + 1, a, [] => [a]
  | n + 1, a, x :: xs => x :: insertAt n a xs

/-- Column assignment `df[n] = v`: replace the column named `n` in place,
or append it at the end when no such column exists. -/
def setColList : List Col → String → List Rat → List Col
  | [], n, v => [⟨n, ColVals.num v⟩]
  | c :: cs, n, v =>
    if c.name = n then ⟨n, ColVals.num v⟩ :: cs else c :: setColList cs n v

/-- Column assignment lifted to frames. -/
def setNumCol (f : Frame) (n : String) (v : List Rat) : Frame :=
  { f with cols := setColList f.cols n v }

/-- The standard capacity constant of the source (`STANDARD_CAPACITY = 152`). -/
def STANDARD_CAPACITY : Rat := 152

/-- Capacity backfill of `recalculate_utilization`: when the frame lacks a
Capacity column, insert one filled with 152 at position 1 if a Role column
exists, else at position 0. -/
def capacitize (f : Frame) : Frame :=
  if f.hasCol "Capacity" then f
  else
    { f with
      cols := insertAt (if f.hasCol "Role" then 1 else 0)
        ⟨"Capacity", ColVals.num (tabulate f.index.length (fun _ => STANDARD_CAPACITY))⟩
        f.cols }

/-- The recomputed utilization column:
`(total_hours / capacity * 100) if capacity > 0 else 0`, rounded to an
integer; totals are taken before the capacity backfill, capacities after,
exactly as in the source. -/
def utilVals (f : Frame) : List Rat :=
  tabulate f.index.length (fun i =>
    ((if capAt (capacitize f) i > 0
      then roundHalfEven (totalHours f i / capAt (capacitize f) i * 100)
      else 0 : Int) : Rat))

/-- The engine's `recalculate_utilization(df)`. -/
def recalculate_utilization (f : Frame) : Frame :=
  if f.isEmpty then f
  else setNumCol (capacitize f) "Current Hours to Target" (utilVals f)

/-- Utilization cell of row `i` (the Current Hours to Target column). -/
def utilAt (f : Frame) (i : Nat) : Rat :=
  ratGet (numColVals f "Current Hours to Target") i

theorem filter_setColList (cs : List Col) (n : String) (v : List Rat)
    (p : Col → Bool) (hp : ∀ c : Col, c.name = n → p c = false) :
    (setColList cs n v).filter p = cs.filter p := by
  induction cs with
  | nil => simp [setColList, hp ⟨n, ColVals.num v⟩ rfl]
  | cons c cs ih =>
    by_cases h : c.name = n
    · simp [setColList, h, hp ⟨n, ColVals.num v⟩ rfl, hp c h]
    · simp only [setColList, if_neg h, List.filter_cons, ih]

theorem filter_insertAt (k : Nat) (a : Col) (l : List Col)
    (p : Col → Bool) (hp : p a = false) :
    (insertAt k a l).filter p = l.filter p := by
  induction l generalizing k with
  | nil => cases k <;> simp [insertAt, hp]
  | cons x xs ih =>
    cases k with
    | zero => simp [insertAt, hp]
    | succ k => simp only [insertAt, List.filter_cons, ih k]

theorem find?_setColList_ne (cs : List Col) (n m : String) (v : List Rat)
    (hne : m ≠ n) :
    (setColList cs n v).find? (fun c => c.name == m)
      = cs.find? (fun c => c.name == m) := by
  have hnm : (n == m) = false := by
    rw [beq_eq_false_iff_ne]
    exact fun h => hne h.symm
  induction cs with
  | nil => simp [setColList, List.find?, hnm]
  | cons c cs ih =>
    simp only [setColList]
    by_cases h : c.name = n
    · rw [if_pos h]
      have h1 : (c.name == m) = false := by rw [h]; exact hnm
      simp [List.find?, h1, hnm]
    · rw [if_neg h]
      simp only [List.find?]
      cases hq : (c.name == m) with
      | true => rfl
      | false => exact ih

theorem find?_setColList_self (cs : List Col) (n : String) (v : List Rat) :
    (setColList cs n v).find? (fun c => c.name == n)
      = some ⟨n, ColVals.num v⟩ := by
  induction cs with
  | nil => simp [setColList, List.find?]
  | cons c cs ih =>
    by_cases h : c.name = n
    · simp [setColList, h, List.find?]
    · have h1 : (c.name == n) = false := by simp [beq_eq_false_iff_ne, h]
      simp [setColList, h, List.find?, h1, ih]

theorem find?_insertAt_of_not_mem (k : Nat) (a : Col) (l : List Col)
    (q : Col → Bool) (hl : ∀ c ∈ l, q c = false) (ha : q a = true) :
    (insertAt k a l).find? q = some a := by
  induction l generalizing k with
  | nil => cases k <;> simp [insertAt, List.find?, ha]
  | cons x xs ih =>
    cases k with
    | zero => simp [insertAt, List.find?, ha]
    | succ k =>
      have hx : q x = false := hl x (List.mem_cons_self x xs)
      have hxs : ∀ c ∈ xs, q c = false := fun c hc => hl c (List.mem_cons_of_mem x hc)
      simp [insertAt, List.find?, hx, ih k hxs]

theorem any_setColList (cs : List Col) (n m : String) (v : List Rat)
    (h : cs.any (fun c => c.name == m) = true) :
    (setColList cs n v).any (fun c => c.name == m) = true := by
  induction cs with
  | nil => simp at h
  | cons c cs ih =>
    by_cases hcn : c.name = n
    · by_cases hcm : c.name = m
      · by_cases hnm : n = m
        · simp [setColList, hcn, List.any_cons, hnm]
        · rw [hcn] at hcm
          exact absurd hcm hnm
      · have h1 : (c.name == m) = false := by simp [beq_eq_false_iff_ne, hcm]
        simp only [List.any_cons, h1, Bool.false_or] at h
        simp [setColList, hcn, List.any_cons, h]
    · simp only [List.any_cons] at h
      rcases Bool.or_eq_true_iff.mp h with h | h
      · simp [setColList, hcn, List.any_cons, h]
      · simp [setColList, hcn, List.any_cons, ih h]

theorem any_insertAt (k : Nat) (a : Col) (l : List Col) (q : Col → Bool)
    (ha : q a = true) :
    (insertAt k a l).any q = true := by
  induction l generalizing k with
  | nil => cases k <;> simp [insertAt, ha]
  | cons x xs ih =>
    cases k with
    | zero => simp [insertAt, ha]
    | succ k => simp [insertAt, List.any_cons, ih k]

theorem setColList_setColList (cs : List Col) (n : String) (v w : List Rat) :
    setColList (setColList cs n v) n w = setColList cs n w := by
  induction cs with
  | nil => simp [setColList]
  | cons c cs ih =>
    by_cases h : c.name = n
    · simp [setColList, h]
    · simp [setColList, h, ih]

theorem setColList_ne_nil (cs : List Col) (n : String) (v : List Rat) :
    setColList cs n v ≠ [] := by
  cases cs with
  | nil => simp [setColList]
  | cons c cs =>
    by_cases h : c.name = n <;> simp [setColList, h]

theorem index_setNumCol (f : Frame) (n : String) (v : List Rat) :
    (setNumCol f n v).index = f.index := rfl

theorem index_capacitize (f : Frame) : (capacitize f).index = f.index := by
  unfold capacitize
  split <;> rfl

/-- The exclusion predicate of `progColsOf` rejects any column named
Capacity or Current Hours to Target, whatever its values. -/
theorem progPred_excluded (c : Col)
    (h : c.name = "Capacity" ∨ c.name = "Current Hours to Target") :
    (c.isNum && !(utilExclude.contains c.name)) = false := by
  rcases h with h | h <;> simp [utilExclude, h]

theorem progColsOf_setNumCol_excluded (f : Frame) (v : List Rat) :
    progColsOf (setNumCol f "Current Hours to Target" v) = progColsOf f := by
  unfold progColsOf setNumCol
  exact filter_setColList f.cols _ v _
    (fun c hc => progPred_excluded c (Or.inr hc))

theorem progColsOf_capacitize (f : Frame) :
    progColsOf (capacitize f) = progColsOf f := by
  unfold capacitize
  split
  · rfl
  · unfold progColsOf
    exact filter_insertAt _ _ f.cols _ (progPred_excluded _ (Or.inl rfl))

theorem totalHours_setNumCol_excluded (f : Frame) (v : List Rat) (i : Nat) :
    totalHours (setNumCol f "Current Hours to Target" v) i = totalHours f i := by
  unfold totalHours
  rw [progColsOf_setNumCol_excluded]

theorem totalHours_capacitize (f : Frame) (i : Nat) :
    totalHours (capacitize f) i = totalHours f i := by
  unfold totalHours
  rw [progColsOf_capacitize]

theorem capAt_setNumCol_util (f : Frame) (v : List Rat) (i : Nat) :
    capAt (setNumCol f "Current Hours to Target" v) i = capAt f i := by
  unfold capAt numColVals setNumCol
  rw [find?_setColList_ne f.cols "Current Hours to Target" "Capacity" v (by decide)]

theorem hasCol_setNumCol_capacity (f : Frame) (v : List Rat)
    (h : f.hasCol "Capacity" = true) :
    (setNumCol f "Current Hours to Target" v).hasCol "Capacity" = true := by
  simp only [Frame.hasCol, setNumCol] at h ⊢
  exact any_setColList f.cols _ _ v h

theorem hasCol_capacitize (f : Frame) :
    (capacitize f).hasCol "Capacity" = true := by
  unfold capacitize
  split
  · assumption
  · unfold Frame.hasCol
    exact any_insertAt _ _ f.cols _ (by simp)

theorem setNumCol_setNumCol (f : Frame) (n : String) (v w : List Rat) :
    setNumCol (setNumCol f n v) n w = setNumCol f n w := by
  simp only [setNumCol]
  rw [setColList_setColList]

/-- C4: for every non-empty table and every row, the recomputed utilization
cell equals `round(total / capacity * 100)` as an integer — where the total
sums exactly the numeric columns other than Capacity and the utilization
column itself (`totalHours` / `progColsOf`), so any newly added numeric
column is automatically included — and equals 0 whenever capacity ≤ 0; the
recompute is a total function, so it never raises. -/
theorem utilization_formula (f : Frame) (hne : f.isEmpty = false) (i : Nat)
    (hi : i < f.index.length) :
    utilAt (recalculate_utilization f) i =
      ((if capAt (recalculate_utilization f) i > 0
        then roundHalfEven (totalHours (recalculate_utilization f) i
              / capAt (recalculate_utilization f) i * 100)
        else 0 : Int) : Rat) := by
  unfold recalculate_utilization
  rw [if_neg (by simp [hne])]
  have hcap : capAt (setNumCol (capacitize f) "Current Hours to Target" (utilVals f)) i
      = capAt (capacitize f) i := capAt_setNumCol_util (capacitize f) (utilVals f) i
  have htot : totalHours (setNumCol (capacitize f) "Current Hours to Target" (utilVals f)) i
      = totalHours f i := by
    rw [totalHours_setNumCol_excluded, totalHours_capacitize]
  rw [hcap, htot]
  unfold utilAt numColVals setNumCol
  rw [find?_setColList_self]
  show ratGet (utilVals f) i = _
  unfold utilVals
  rw [ratGet_tabulate _ _ i hi]

/-- Witness for C4: a one-row table with Role CP, Capacity 152 and program
columns Acme 40, Globex 60; the recomputed utilization is
round(100 / 152 * 100) = 66. -/
theorem utilization_formula_witness :
    (Frame.isEmpty ⟨["Alice"],
        [⟨"Role", ColVals.strs ["CP"]⟩, ⟨"Capacity", ColVals.num [152]⟩,
         ⟨"Acme", ColVals.num [40]⟩, ⟨"Globex", ColVals.num [60]⟩]⟩ = false)
    ∧ utilAt (recalculate_utilization ⟨["Alice"],
        [⟨"Role", ColVals.strs ["CP"]⟩, ⟨"Capacity", ColVals.num [152]⟩,
         ⟨"Acme", ColVals.num [40]⟩, ⟨"Globex", ColVals.num [60]⟩]⟩) 0 =
      ((if capAt (recalculate_utilization ⟨["Alice"],
          [⟨"Role", ColVals.strs ["CP"]⟩, ⟨"Capacity", ColVals.num [152]⟩,
           ⟨"Acme", ColVals.num [40]⟩, ⟨"Globex", ColVals.num [60]⟩]⟩) 0 > 0
        then roundHalfEven (totalHours (recalculate_utilization ⟨["Alice"],
          [⟨"Role", ColVals.strs ["CP"]⟩, ⟨"Capacity", ColVals.num [152]⟩,
           ⟨"Acme", ColVals.num [40]⟩, ⟨"Globex", ColVals.num [60]⟩]⟩) 0
              / capAt (recalculate_utilization ⟨["Alice"],
          [⟨"Role", ColVals.strs ["CP"]⟩, ⟨"Capacity", ColVals.num [152]⟩,
           ⟨"Acme", ColVals.num [40]⟩, ⟨"Globex", ColVals.num [60]⟩]⟩) 0 * 100)
        else 0 : Int) : Rat) :=
  ⟨by decide,
   utilization_formula ⟨["Alice"],
      [⟨"Role", ColVals.strs ["CP"]⟩, ⟨"Capacity", ColVals.num [152]⟩,
       ⟨"Acme", ColVals.num [40]⟩, ⟨"Globex", ColVals.num [60]⟩]⟩
     (by decide) 0 (by decide)⟩

/-- C9: the utilization recompute is idempotent — running it twice on any
table yields exactly the table produced by running it once, because the
utilization column is excluded from the summed columns and the capacity
column is only backfilled when absent. -/
theorem recalc_idempotent (f : Frame) :
    recalculate_utilization (recalculate_utilization f) =
      recalculate_utilization f := by
  by_cases he : f.isEmpty = true
  · have h : recalculate_utilization f = f := by
      unfold recalculate_utilization
      rw [if_pos he]
    rw [h, h]
  · have he' : f.isEmpty = false := by
      cases hv : f.isEmpty
      · rfl
      · exact absurd hv he
    have hrec : recalculate_utilization f
        = setNumCol (capacitize f) "Current Hours to Target" (utilVals f) := by
      unfold recalculate_utilization
      rw [if_neg he]
    set g := setNumCol (capacitize f) "Current Hours to Target" (utilVals f) with hg
    have hidx : g.index = f.index := by
      rw [hg, index_setNumCol, index_capacitize]
    have hcolsne : g.cols ≠ [] :=
      setColList_ne_nil (capacitize f).cols "Current Hours to Target" (utilVals f)
    have hgcols : g.cols.isEmpty = false := by
      cases hc : g.cols with
      | nil => exact absurd hc hcolsne
      | cons a l => rfl
    have hgidx : g.index.isEmpty = false := by
      rw [hidx]
      have := he'
      unfold Frame.isEmpty at this
      cases hv : f.index.isEmpty
      · rfl
      · rw [hv] at this
        simp at this
    have hgne : g.isEmpty = false := by
      unfold Frame.isEmpty
      rw [hgidx, hgcols]
      rfl
    have hcapg : g.hasCol "Capacity" = true :=
      hasCol_setNumCol_capacity (capacitize f) (utilVals f) (hasCol_capacitize f)
    have hcapz : capacitize g = g := by
      unfold capacitize
      rw [if_pos hcapg]
    have hutil : utilVals g = utilVals f := by
      unfold utilVals
      rw [hidx, hcapz]
      apply tabulate_congr
      intro i
      have h1 : capAt g i = capAt (capacitize f) i := by
        rw [hg]
        exact capAt_setNumCol_util (capacitize f) (utilVals f) i
      have h2 : totalHours g i = totalHours f i := by
        rw [hg, totalHours_setNumCol_excluded, totalHours_capacitize]
      rw [h1, h2]
    rw [hrec]
    show recalculate_utilization g = g
    unfold recalculate_utilization
    rw [if_neg (by simp [hgne]), hcapz, hutil, hg]
    exact setNumCol_setNumCol (capacitize f) _ (utilVals f) (utilVals f)

/-- The rate card of `src/utils.py`, in its source (dict insertion) order. -/
def RATE_CARD : List (String × Rat) :=
  [("ACP", 37), ("CP", 54), ("SCP", 54), ("LCP", 89),
   ("ACE", 89), ("CE", 89), ("SCE", 119),
   ("R+I I", 44), ("R+I II", 56), ("R+I III", 89), ("R+I IV", 135)]

/-- The engine's `get_rate(role_name)`: 0 for an empty role; otherwise an
exact lookup of the trimmed, uppercased role among the rate-card keys,
falling back to the first key that occurs as a substring of it, and 0 when
neither resolves. -/
def get_rate (role : String) : Rat :=
  if role = "" then 0
  else
    match RATE_CARD.find? (fun p => p.1.toList == upperKey role) with
    | some p => p.2
    | none =>
      match RATE_CARD.find? (fun p => subList p.1.toList (upperKey role)) with
      | some p => p.2
      | none => 0

/-- C8: rate lookup tries an exact match of the trimmed, uppercased role
against the rate-card keys first, then falls back to the first rate-card
key occurring as a substring of the uppercased role, and returns 0 for an
unresolvable role (it is a total function, so it never raises); in
particular `get_rate "Senior CP" = get_rate "CP"` and
`get_rate "Unknown Role" = 0`. -/
theorem rate_lookup_fallback :
    (∀ role p, role ≠ "" →
       RATE_CARD.find? (fun q => q.1.toList == upperKey role) = some p →
       get_rate role = p.2)
    ∧ (∀ role p, role ≠ "" →
       RATE_CARD.find? (fun q => q.1.toList == upperKey role) = none →
       RATE_CARD.find? (fun q => subList q.1.toList (upperKey role)) = some p →
       get_rate role = p.2)
    ∧ (∀ role,
       RATE_CARD.find? (fun q => q.1.toList == upperKey role) = none →
       RATE_CARD.find? (fun q => subList q.1.toList (upperKey role)) = none →
       get_rate role = 0)
    ∧ get_rate "Senior CP" = get_rate "CP"
    ∧ get_rate "Unknown Role" = 0 := by
  refine ⟨?_, ?_, ?_, by decide, by decide⟩
  · intro role p hne hfind
    unfold get_rate
    rw [if_neg hne, hfind]
  · intro role p hne hfind hsub
    unfold get_rate
    rw [if_neg hne, hfind, hsub]
  · intro role hfind hsub
    unfold get_rate
    by_cases hne : role = ""
    · rw [if_pos hne]
    · rw [if_neg hne, hfind, hsub]

/-- Witness for C8: the substring fallback resolves Senior CP to the CP
rate 54. -/
theorem rate_lookup_fallback_witness :
    ("Senior CP" : String) ≠ ""
    ∧ RATE_CARD.find? (fun q => q.1.toList == upperKey "Senior CP") = none
    ∧ RATE_CARD.find?
        (fun q => subList q.1.toList (upperKey "Senior CP"))
        = some ("CP", 54)
    ∧ get_rate "Senior CP" = (("CP", (54 : Rat))).2 :=
  ⟨by decide, by decide, by decide,
   rate_lookup_fallback.2.1 "Senior CP" ("CP", 54) (by decide) (by decide) (by decide)⟩

/-- The engine's `find_column(df, candidates)`: candidates are tried in
priority order; the first original header whose trimmed, lowercased form
equals the trimmed, lowercased candidate wins; `none` when no candidate
matches any header. -/
def find_column (headers : List String) : List String → Option String
  | [] => none
  | c :: rest =>
    match headers.find? (fun h => lowerKey h == lowerKey c) with
    | some h => some h
    | none => find_column headers rest

/-- The exact hours-column candidates of `process_uploaded_file`. -/
def hourCandidates : List String :=
  ["Allocated Monthly Hours", "Allocated Hours", "Hours"]

/-- Hours-column resolution of `process_uploaded_file` in `src/app.py`:
exact candidates first, then the first header containing the substring
"Allocated" (`found = [c for c in df.columns if 'Allocated' in c]`). -/
def resolveHourCol (headers : List String) : Option String :=
  match find_column headers hourCandidates with
  | some h => some h
  | none => (headers.filter (fun c => strContainsSub "Allocated" c)).head?

theorem head?_filter_eq_find? {α : Type} (p : α → Bool) (l : List α) :
    (l.filter p).head? = l.find? p := by
  induction l with
  | nil => rfl
  | cons x xs ih =>
    cases hx : p x with
    | true => simp [List.filter_cons, List.find?, hx]
    | false => simp [List.filter_cons, List.find?, hx, ih]

/-- C6: when none of the exact hours-column candidates matches any header
(in the trimmed, case-insensitive sense), the normalizer falls back to the
first header containing the substring "Allocated", pivoting then proceeds
with that header as the hours column. -/
theorem hours_fallback (headers : List String) (h : String)
    (h1 : find_column headers hourCandidates = none)
    (h2 : headers.find? (fun c => strContainsSub "Allocated" c) = some h) :
    resolveHourCol headers = some h
    ∧ h ∈ headers
    ∧ strContainsSub "Allocated" h = true := by
  refine ⟨?_, List.mem_of_find?_eq_some h2, List.find?_some h2⟩
  unfold resolveHourCol
  rw [h1, head?_filter_eq_find?, h2]

/-- Witness for C6: in headers [CT Name, Program, Allocated Hrs] no exact
candidate matches, and the fallback resolves the hours column to
"Allocated Hrs". -/
theorem hours_fallback_witness :
    find_column ["CT Name", "Program", "Allocated Hrs"] hourCandidates = none
    ∧ (["CT Name", "Program", "Allocated Hrs"].find?
        (fun c => strContainsSub "Allocated" c) = some "Allocated Hrs")
    ∧ (resolveHourCol ["CT Name", "Program", "Allocated Hrs"] = some "Allocated Hrs"
       ∧ "Allocated Hrs" ∈ ["CT Name", "Program", "Allocated Hrs"]
       ∧ strContainsSub "Allocated" "Allocated Hrs" = true) :=
  ⟨by decide, by decide,
   hours_fallback ["CT Name", "Program", "Allocated Hrs"] "Allocated Hrs"
     (by decide) (by decide)⟩

/-- Role cell of row `i`: `row.get('Role', '')`, empty when no Role column. -/
def rowRole (f : Frame) (i : Nat) : String :=
  match f.cols.find? (fun c => c.name == "Role") with
  | some c =>
    match c.vals with
    | .strs l => strGet l i
    | .num _ => ""
  | none => ""

/-- One entry of the margin-metrics map produced by `calculate_margin`. -/
structure MarginRec where
  mrr : Rat
  margin_pct : Rat
  margin_fut : Rat
  delta : Rat
deriving DecidableEq

/-- Python `program_mrr_dict.get(prog, 0)`. -/
def lookupMrr (m : List (String × Rat)) (p : String) : Rat :=
  match m.find? (fun q => q.1 == p) with
  | some q => q.2
  | none => 0

/-- Python `future_map.get((emp, prog))`, extracting `future_hours`. -/
def lookupFut (fm : List ((String × String) × Rat)) (e p : String) : Option Rat :=
  match fm.find? (fun q => q.1.1 == e && q.1.2 == p) with
  | some q => some q.2
  | none => none

/-- Per-program current cost: the accumulated
`prog_cost_current[prog] += curr_hours * rate` over all rows. -/
def costCurrent (f : Frame) (c : Col) : Rat :=
  ratSum (tabulate f.index.length (fun i => colCell c i * get_rate (rowRole f i)))

/-- Per-program projected cost: like `costCurrent` but with each
(employee, program) pair's future hours from the future-state map,
defaulting to the current hours when the pair is absent. -/
def costFuture (f : Frame) (c : Col) (fm : List ((String × String) × Rat)) : Rat :=
  ratSum (tabulate f.index.length (fun i =>
    (match lookupFut fm (strGet f.index i) c.name with
     | some h => h
     | none => colCell c i) * get_rate (rowRole f i)))

/-- The margin formula of `calculate_margin`:
`(mrr - cost) / mrr * 100` when mrr > 0, else -100 when cost > 0, else 0. -/
def marginOf (cost mrrV : Rat) : Rat :=
  if mrrV > 0 then (mrrV - cost) / mrrV * 100
  else if cost > 0 then -100 else 0

/-- The engine's `calculate_margin(df, program_mrr_dict, future_map)` from
`src/utils.py`: one record per program column holding its recorded MRR and
the current and projected margin percentages. -/
def calculate_margin (f : Frame) (m : List (String × Rat))
    (fm : List ((String × String) × Rat)) : List (String × MarginRec) :=
  if f.isEmpty then []
  else
    (progColsOf f).map (fun c =>
      (c.name,
       { mrr := lookupMrr m c.name
         margin_pct := marginOf (costCurrent f c) (lookupMrr m c.name)
         margin_fut := marginOf (costFuture f c fm) (lookupMrr m c.name)
         delta := marginOf (costFuture f c fm) (lookupMrr m c.name)
                   - marginOf (costCurrent f c) (lookupMrr m c.name) }))

/-- C2: every entry of the margin map satisfies the margin rule — when the
program's recorded revenue (defaulting to 0 when absent from the revenue
map) is positive, margin_pct = (revenue - cost) / revenue * 100; when it
is 0, margin_pct is exactly -100 if the program's cost is positive and
exactly 0 if the cost is 0; and the projected margin built from projected
hours obeys the same rule. -/
theorem margin_sentinel (f : Frame) (m : List (String × Rat))
    (fm : List ((String × String) × Rat)) (c : Col)
    (hne : f.isEmpty = false) (hc : c ∈ progColsOf f) :
    ∃ r : MarginRec, (c.name, r) ∈ calculate_margin f m fm
      ∧ r.mrr = lookupMrr m c.name
      ∧ (lookupMrr m c.name > 0 →
           r.margin_pct
             = (lookupMrr m c.name - costCurrent f c) / lookupMrr m c.name * 100
           ∧ r.margin_fut
             = (lookupMrr m c.name - costFuture f c fm) / lookupMrr m c.name * 100)
      ∧ (lookupMrr m c.name = 0 →
           (costCurrent f c > 0 → r.margin_pct = -100)
           ∧ (costCurrent f c = 0 → r.margin_pct = 0)
           ∧ (costFuture f c fm > 0 → r.margin_fut = -100)
           ∧ (costFuture f c fm = 0 → r.margin_fut = 0)) := by
  refine ⟨{ mrr := lookupMrr m c.name
            margin_pct := marginOf (costCurrent f c) (lookupMrr m c.name)
            margin_fut := marginOf (costFuture f c fm) (lookupMrr m c.name)
            delta := marginOf (costFuture f c fm) (lookupMrr m c.name)
                      - marginOf (costCurrent f c) (lookupMrr m c.name) },
         ?_, rfl, ?_, ?_⟩
  · unfold calculate_margin
    rw [if_neg (by simp [hne])]
    exact List.mem_map.mpr ⟨c, hc, rfl⟩
  · intro hpos
    constructor
    · show marginOf (costCurrent f c) (lookupMrr m c.name) = _
      unfold marginOf
      rw [if_pos hpos]
    · show marginOf (costFuture f c fm) (lookupMrr m c.name) = _
      unfold marginOf
      rw [if_pos hpos]
  · intro h0
    have hnpos : ¬ lookupMrr m c.name > 0 := by rw [h0]; norm_num
    refine ⟨?_, ?_, ?_, ?_⟩
    · intro hcost
      show marginOf (costCurrent f c) (lookupMrr m c.name) = _
      unfold marginOf
      rw [if_neg hnpos, if_pos hcost]
    · intro hcost
      show marginOf (costCurrent f c) (lookupMrr m c.name) = _
      unfold marginOf
      rw [if_neg hnpos, if_neg (by rw [hcost]; norm_num)]
    · intro hcost
      show marginOf (costFuture f c fm) (lookupMrr m c.name) = _
      unfold marginOf
      rw [if_neg hnpos, if_pos hcost]
    · intro hcost
      show marginOf (costFuture f c fm) (lookupMrr m c.name) = _
      unfold marginOf
      rw [if_neg hnpos, if_neg (by rw [hcost]; norm_num)]

/-- Witness for C2: a one-employee table (role CP, 2 hours on program X)
with an empty revenue map; the margin map holds an entry for X obeying the
sentinel rule. -/
theorem margin_sentinel_witness :
    (Frame.isEmpty ⟨["A"], [⟨"Role", ColVals.strs ["CP"]⟩,
        ⟨"X", ColVals.num [2]⟩]⟩ = false)
    ∧ (⟨"X", ColVals.num [2]⟩ : Col) ∈
        progColsOf ⟨["A"], [⟨"Role", ColVals.strs ["CP"]⟩, ⟨"X", ColVals.num [2]⟩]⟩
    ∧ ∃ r : MarginRec,
        ((⟨"X", ColVals.num [2]⟩ : Col).name, r) ∈
          calculate_margin
            ⟨["A"], [⟨"Role", ColVals.strs ["CP"]⟩, ⟨"X", ColVals.num [2]⟩]⟩ [] []
        ∧ r.mrr = lookupMrr [] (⟨"X", ColVals.num [2]⟩ : Col).name
        ∧ (lookupMrr [] (⟨"X", ColVals.num [2]⟩ : Col).name > 0 →
             r.margin_pct
               = (lookupMrr [] (⟨"X", ColVals.num [2]⟩ : Col).name
                   - costCurrent ⟨["A"], [⟨"Role", ColVals.strs ["CP"]⟩,
                       ⟨"X", ColVals.num [2]⟩]⟩ ⟨"X", ColVals.num [2]⟩)
                 / lookupMrr [] (⟨"X", ColVals.num [2]⟩ : Col).name * 100
             ∧ r.margin_fut
               = (lookupMrr [] (⟨"X", ColVals.num [2]⟩ : Col).name
                   - costFuture ⟨["A"], [⟨"Role", ColVals.strs ["CP"]⟩,
                       ⟨"X", ColVals.num [2]⟩]⟩ ⟨"X", ColVals.num [2]⟩ [])
                 / lookupMrr [] (⟨"X", ColVals.num [2]⟩ : Col).name * 100)
        ∧ (lookupMrr [] (⟨"X", ColVals.num [2]⟩ : Col).name = 0 →
             (costCurrent ⟨["A"], [⟨"Role", ColVals.strs ["CP"]⟩,
                 ⟨"X", ColVals.num [2]⟩]⟩ ⟨"X", ColVals.num [2]⟩ > 0 →
               r.margin_pct = -100)
             ∧ (costCurrent ⟨["A"], [⟨"Role", ColVals.strs ["CP"]⟩,
                 ⟨"X", ColVals.num [2]⟩]⟩ ⟨"X", ColVals.num [2]⟩ = 0 →
               r.margin_pct = 0)
             ∧ (costFuture ⟨["A"], [⟨"Role", ColVals.strs ["CP"]⟩,
                 ⟨"X", ColVals.num [2]⟩]⟩ ⟨"X", ColVals.num [2]⟩ [] > 0 →
               r.margin_fut = -100)
             ∧ (costFuture ⟨["A"], [⟨"Role", ColVals.strs ["CP"]⟩,
                 ⟨"X", ColVals.num [2]⟩]⟩ ⟨"X", ColVals.num [2]⟩ [] = 0 →
               r.margin_fut = 0)) :=
  ⟨by decide, by decide,
   margin_sentinel ⟨["A"], [⟨"Role", ColVals.strs ["CP"]⟩, ⟨"X", ColVals.num [2]⟩]⟩
     [] [] ⟨"X", ColVals.num [2]⟩ (by decide) (by decide)⟩

/-- The status of one (employee, program) assignment in the future-state
map: Stable, RollingOff(end date) or Ramping(direction, target, date).
Dates are carried as day differences from today. -/
inductive FStatus where
  | Stable
  | RollingOff (endDays : Int)
  | Ramping (increasing : Bool) (target : Rat) (changeDays : Int)
deriving DecidableEq

/-- The row's effective future-hours value:
`row[future_hours_col]` (a blank cell coerced to 0 by
`to_numeric(...).fillna(0)`) when the future-hours column is present,
else the row's current hours. -/
def effFut (hasFut : Bool) (futCell : Option Rat) (current : Rat) : Rat :=
  if hasFut then futCell.getD 0 else current

/-- The row's effective date cell: the cell when the column is present
(none for NaT), `NaT` (none) when the column is absent. -/
def effDate (present : Bool) (cell : Option Int) : Option Int :=
  if present then cell else none

/-- The ramp-or-stable tail of the decision: a change date within 60 days
with differing future hours yields Ramping, anything else Stable. -/
def rampOrStable (fut current : Rat) : Option Int → Rat × FStatus
  | some c =>
    if c ≤ 60 then
      if fut ≠ current then (fut, FStatus.Ramping (decide (current < fut)) fut c)
      else (current, FStatus.Stable)
    else (current, FStatus.Stable)
  | none => (current, FStatus.Stable)

/-- The per-row future-state derivation of `process_uploaded_file`
(`src/utils.py`, the logic hierarchy): an end date within 30 days wins with
projected hours 0; else a change date within 60 days with differing future
hours ramps to the future hours; else stable at the current hours. -/
def deriveFuture (hasFut hasEnd hasChange : Bool) (current : Rat)
    (futCell : Option Rat) (endCell changeCell : Option Int) : Rat × FStatus :=
  match effDate hasEnd endCell with
  | some d =>
    if d ≤ 30 then (0, FStatus.RollingOff d)
    else rampOrStable (effFut hasFut futCell current) current
           (effDate hasChange changeCell)
  | none =>
    rampOrStable (effFut hasFut futCell current) current
      (effDate hasChange changeCell)

/-- The rolling-off test as a boolean: an end date exists and lies within
30 days (inclusive, past dates included). -/
def rollCondB : Option Int → Bool
  | some d => decide (d ≤ 30)
  | none => false

/-- The ramping test as a boolean: a change date exists within 60 days and
the effective future hours differ from the current hours. -/
def rampCondB (fut current : Rat) : Option Int → Bool
  | some c => decide (c ≤ 60) && decide (fut ≠ current)
  | none => false

/-- C3: future-state is a fixed three-way priority with no rule stacking —
an end date within 30 days from now (inclusive, past dates included) always
yields RollingOff with projected hours 0, regardless of any future-hours
value and in particular even when the 60-day change window also holds;
otherwise a change date within 60 days with differing future hours yields
Ramping with projected hours equal to the future hours; otherwise the row
is Stable with projected hours equal to the current hours. -/
theorem future_state_priority (hasFut hasEnd hasChange : Bool) (current : Rat)
    (futCell : Option Rat) (endCell changeCell : Option Int) :
    (∀ d, effDate hasEnd endCell = some d → d ≤ 30 →
       deriveFuture hasFut hasEnd hasChange current futCell endCell changeCell
         = (0, FStatus.RollingOff d))
    ∧ (rollCondB (effDate hasEnd endCell) = false →
       ∀ c, effDate hasChange changeCell = some c → c ≤ 60 →
         effFut hasFut futCell current ≠ current →
         deriveFuture hasFut hasEnd hasChange current futCell endCell changeCell
           = (effFut hasFut futCell current,
              FStatus.Ramping (decide (current < effFut hasFut futCell current))
                (effFut hasFut futCell current) c))
    ∧ (rollCondB (effDate hasEnd endCell) = false →
       rampCondB (effFut hasFut futCell current) current
           (effDate hasChange changeCell) = false →
       deriveFuture hasFut hasEnd hasChange current futCell endCell changeCell
         = (current, FStatus.Stable)) := by
  refine ⟨?_, ?_, ?_⟩
  · intro d hd h30
    unfold deriveFuture
    rw [hd]
    simp [h30]
  · intro hroll c hc h60 hfut
    unfold deriveFuture
    cases he : effDate hasEnd endCell with
    | none =>
      rw [hc]
      simp only [rampOrStable]
      rw [if_pos h60, if_pos hfut]
    | some d =>
      rw [he] at hroll
      simp only [rollCondB, decide_eq_false_iff_not] at hroll
      rw [hc]
      simp only [rampOrStable]
      simp [hroll, h60, hfut]
  · intro hroll hramp
    have hstable : rampOrStable (effFut hasFut futCell current) current
        (effDate hasChange changeCell) = (current, FStatus.Stable) := by
      cases hc : effDate hasChange changeCell with
      | none => rfl
      | some c =>
        rw [hc] at hramp
        simp only [rampCondB, Bool.and_eq_false_iff, decide_eq_false_iff_not,
          not_not] at hramp
        simp only [rampOrStable]
        by_cases h60 : c ≤ 60
        · rcases hramp with h | h
          · exact absurd h60 h
          · rw [if_pos h60, if_neg (by simp [h])]
        · rw [if_neg h60]
    unfold deriveFuture
    cases he : effDate hasEnd endCell with
    | none => exact hstable
    | some d =>
      rw [he] at hroll
      simp only [rollCondB, decide_eq_false_iff_not] at hroll
      simp [hroll, hstable]

/-- Witness for C3: a row inside both windows (end date 10 days out, change
date 10 days out, future hours 99 differing from current 40) resolves to
RollingOff with projected hours 0. -/
theorem future_state_priority_witness :
    effDate true (some 10) = some 10
    ∧ ((10 : Int) ≤ 30)
    ∧ deriveFuture true true true 40 (some 99) (some 10) (some 10)
        = (0, FStatus.RollingOff 10) :=
  ⟨by decide, by decide,
   (future_state_priority true true true 40 (some 99) (some 10) (some 10)).1
     10 (by decide) (by decide)⟩

/-- Counterexample for C7: a row whose future-hours cell is absent (blank,
coerced to 0 by `fillna(0)` since the column is present), with no end date
and a change date 10 days out, and current hours 40: the code classifies it
Ramping toward 0 with projected hours 0, not Stable with projected hours
40 as the claim requires. -/
theorem future_default_cex :
    deriveFuture true false true 40 none none (some 10)
      = (0, FStatus.Ramping false 0 10)
    ∧ deriveFuture true false true 40 none none (some 10)
      ≠ (40, FStatus.Stable) := by
  constructor
  · decide
  · decide

/-- C7 as amended: the default-to-current-hours behaviour holds at the level
of the future-hours column, not of the individual cell — when the
future-hours column is absent from the table, every row's effective future
hours equal its current hours, and such a row with no end date within 30
days is classified Stable with projected hours equal to the current hours
(never Ramping); a blank cell of a present column instead coerces to 0, as
the counterexample shows. -/
theorem future_default_amended (hasEnd hasChange : Bool) (current : Rat)
    (futCell : Option Rat) (endCell changeCell : Option Int)
    (hroll : rollCondB (effDate hasEnd endCell) = false) :
    effFut false futCell current = current
    ∧ deriveFuture false hasEnd hasChange current futCell endCell changeCell
      = (current, FStatus.Stable) := by
  have hfut : effFut false futCell current = current := rfl
  refine ⟨hfut, ?_⟩
  have hstable : ∀ x : Option Int,
      rampOrStable (effFut false futCell current) current x
        = (current, FStatus.Stable) := by
    intro x
    cases x with
    | none => rfl
    | some c =>
      rw [hfut]
      by_cases h60 : c ≤ 60
      · simp [rampOrStable, h60]
      · simp [rampOrStable, h60]
  unfold deriveFuture
  cases he : effDate hasEnd endCell with
  | none => exact hstable _
  | some d =>
    rw [he] at hroll
    simp only [rollCondB, decide_eq_false_iff_not] at hroll
    simp [hroll, hstable]

/-- Witness for the amended C7: no future-hours column, end date 100 days
out (outside the 30-day window), change date 10 days out: the row stays
Stable at its current 40 hours. -/
theorem future_default_amended_witness :
    rollCondB (effDate true (some 100)) = false
    ∧ (effFut false (some 99) 40 = 40
       ∧ deriveFuture false true true 40 (some 99) (some 100) (some 10)
         = (40, FStatus.Stable)) :=
  ⟨by decide,
   future_default_amended true true 40 (some 99) (some 100) (some 10) (by decide)⟩

/-- One long-format assignment row, after numeric coercion of the hours
column: employee, program and hours. -/
structure LongRow where
  emp : String
  prog : String
  hours : Rat
deriving DecidableEq

/-- One accumulated (employee, program) group with its running hour sum. -/
structure PCell where
  emp : String
  prog : String
  val : Rat
deriving DecidableEq

/-- Accumulate one long row into the group list: add to an existing
(employee, program) group or start a new one (the grouping step of
`pivot_table(..., aggfunc=sum)`). -/
def bump : List PCell → String → String → Rat → List PCell
  | [], e, p, h => [⟨e, p, h⟩]
  | c :: cs, e, p, h =>
    if c.emp = e ∧ c.prog = p then ⟨e, p, c.val + h⟩ :: cs
    else c :: bump cs e p h

/-- Value of an (employee, program) group, 0 when the group is absent
(the `fillna(0)` of the pivot). -/
def cellVal (m : List PCell) (e p : String) : Rat :=
  match m.find? (fun c => c.emp == e && c.prog == p) with
  | some c => c.val
  | none => 0

/-- The grouped sums of all long rows. -/
def pivotAcc (rows : List LongRow) : List PCell :=
  rows.foldl (fun m r => bump m r.emp r.prog r.hours) []

/-- Total hours of the long rows matching an (employee, program) pair. -/
def sumMatching (rows : List LongRow) (e p : String) : Rat :=
  ratSum ((rows.filter (fun r => r.emp == e && r.prog == p)).map LongRow.hours)

/-- Auxiliary: first occurrences of a string list, given already-seen keys. -/
def uniqAux (seen : List String) : List String → List String
  | [] => []
  | x :: xs => if x ∈ seen then uniqAux seen xs else x :: uniqAux (x :: seen) xs

/-- The distinct values of a string list (the unique index / column keys
of the pivot). -/
def uniq (l : List String) : List String :=
  uniqAux [] l

/-- The engine's
`pivot_table(index=ct_col, columns=prog_col, values=hour_col, aggfunc=sum).fillna(0)`:
one row per unique employee, one numeric column per unique program, each
cell the summed hours of the matching rows, 0 when no row matches. -/
def pivot_table (rows : List LongRow) : Frame :=
  { index := uniq (rows.map LongRow.emp)
    cols := (uniq (rows.map LongRow.prog)).map (fun p =>
      ⟨p, ColVals.num ((uniq (rows.map LongRow.emp)).map
            (fun e => cellVal (pivotAcc rows) e p))⟩) }

/-- Position of an employee in the wide index (first occurrence). -/
def idxOf (e : String) : List String → Nat
  | [] => 0
  | x :: xs => if x = e then 0 else idxOf e xs + 1

/-- The wide matrix cell for (employee, program). -/
def wideCell (f : Frame) (e p : String) : Rat :=
  ratGet (numColVals f p) (idxOf e f.index)

theorem cellVal_bump_same (m : List PCell) (e p : String) (h : Rat) :
    cellVal (bump m e p h) e p = cellVal m e p + h := by
  induction m with
  | nil => simp [bump, cellVal, List.find?]
  | cons c cs ih =>
    by_cases hc : c.emp = e ∧ c.prog = p
    · simp [bump, hc, cellVal, List.find?, hc.1, hc.2]
    · have hb : (c.emp == e && c.prog == p) = false := by
        rcases not_and_or.mp hc with h1 | h1 <;> simp [h1]
      simp only [bump, if_neg hc, cellVal, List.find?, hb]
      exact ih

theorem cellVal_bump_other (m : List PCell) (e p e1 p1 : String) (h : Rat)
    (hne : ¬ (e1 = e ∧ p1 = p)) :
    cellVal (bump m e1 p1 h) e p = cellVal m e p := by
  have hb : ((⟨e1, p1, h⟩ : PCell).emp == e && (⟨e1, p1, h⟩ : PCell).prog == p)
      = false := by
    rcases not_and_or.mp hne with h1 | h1 <;> simp [h1]
  induction m with
  | nil => simp [bump, cellVal, List.find?, hb]
  | cons c cs ih =>
    by_cases hc : c.emp = e1 ∧ c.prog = p1
    · have hcb : (c.emp == e && c.prog == p) = false := by
        rcases not_and_or.mp hne with h1 | h1
        · simp [hc.1, h1]
        · simp [hc.2, h1]
      have hgb : ((⟨e1, p1, c.val + h⟩ : PCell).emp == e
          && (⟨e1, p1, c.val + h⟩ : PCell).prog == p) = false := by
        rcases not_and_or.mp hne with h1 | h1 <;> simp [h1]
      simp only [bump, if_pos hc, cellVal, List.find?, hgb, hcb]
    · simp only [bump, if_neg hc, cellVal, List.find?]
      cases hq : (c.emp == e && c.prog == p) with
      | true => rfl
      | false => exact ih

theorem cellVal_foldl (rows : List LongRow) (m : List PCell) (e p : String) :
    cellVal (rows.foldl (fun acc r => bump acc r.emp r.prog r.hours) m) e p
      = cellVal m e p + sumMatching rows e p := by
  induction rows generalizing m with
  | nil => simp [sumMatching, ratSum]
  | cons r rs ih =>
    simp only [List.foldl_cons]
    rw [ih]
    by_cases hr : r.emp = e ∧ r.prog = p
    · obtain ⟨h1, h2⟩ := hr
      rw [h1, h2, cellVal_bump_same]
      have hfil : sumMatching (r :: rs) e p = r.hours + sumMatching rs e p := by
        unfold sumMatching
        rw [List.filter_cons, if_pos (by simp [h1, h2])]
        simp [ratSum]
      rw [hfil]
      ring
    · rw [cellVal_bump_other _ _ _ _ _ _ hr]
      have hb : (r.emp == e && r.prog == p) = false := by
        rcases not_and_or.mp hr with h1 | h1 <;> simp [h1]
      have hfil : sumMatching (r :: rs) e p = sumMatching rs e p := by
        unfold sumMatching
        rw [List.filter_cons, if_neg (by simp [hb])]
      rw [hfil]

theorem cellVal_pivotAcc (rows : List LongRow) (e p : String) :
    cellVal (pivotAcc rows) e p = sumMatching rows e p := by
  unfold pivotAcc
  rw [cellVal_foldl]
  simp [cellVal, List.find?]

theorem mem_uniqAux (seen l : List String) (a : String) :
    a ∈ uniqAux seen l ↔ a ∈ l ∧ a ∉ seen := by
  induction l generalizing seen with
  | nil => simp [uniqAux]
  | cons x xs ih =>
    by_cases hx : x ∈ seen
    · rw [uniqAux, if_pos hx, ih]
      constructor
      · rintro ⟨h1, h2⟩
        exact ⟨List.mem_cons_of_mem x h1, h2⟩
      · rintro ⟨h1, h2⟩
        rcases List.mem_cons.mp h1 with h3 | h3
        · exact absurd (h3 ▸ hx) h2
        · exact ⟨h3, h2⟩
    · rw [uniqAux, if_neg hx]
      constructor
      · intro h1
        rcases List.mem_cons.mp h1 with h3 | h3
        · exact ⟨h3 ▸ List.mem_cons_self x xs, h3 ▸ hx⟩
        · have := (ih (x :: seen)).mp h3
          refine ⟨List.mem_cons_of_mem x this.1, fun hs => this.2 ?_⟩
          exact List.mem_cons_of_mem x hs
      · rintro ⟨h1, h2⟩
        rcases List.mem_cons.mp h1 with h3 | h3
        · exact h3 ▸ List.mem_cons_self x _
        · by_cases hax : a = x
          · exact hax ▸ List.mem_cons_self x _
          · refine List.mem_cons_of_mem x ((ih (x :: seen)).mpr ⟨h3, ?_⟩)
            intro hs
            rcases List.mem_cons.mp hs with h4 | h4
            · exact hax h4
            · exact h2 h4

theorem nodup_uniqAux (seen l : List String) : (uniqAux seen l).Nodup := by
  induction l generalizing seen with
  | nil => simp [uniqAux]
  | cons x xs ih =>
    by_cases hx : x ∈ seen
    · rw [uniqAux, if_pos hx]
      exact ih seen
    · rw [uniqAux, if_neg hx]
      refine List.Nodup.cons ?_ (ih (x :: seen))
      intro hmem
      exact ((mem_uniqAux (x :: seen) xs x).mp hmem).2 (List.mem_cons_self x seen)

theorem mem_uniq (l : List String) (a : String) : a ∈ uniq l ↔ a ∈ l := by
  rw [uniq, mem_uniqAux]
  simp

theorem nodup_uniq (l : List String) : (uniq l).Nodup :=
  nodup_uniqAux [] l

theorem ratGet_map_idxOf (l : List String) (f : String → Rat) (e : String)
    (he : e ∈ l) :
    ratGet (l.map f) (idxOf e l) = f e := by
  induction l with
  | nil => simp at he
  | cons x xs ih =>
    by_cases hx : x = e
    · simp [idxOf, hx, ratGet]
    · rcases List.mem_cons.mp he with h1 | h1
      · exact absurd h1.symm hx
      · simp only [idxOf, if_neg hx, List.map_cons, ratGet]
        exact ih h1

theorem map_name_comp (l : List String) (g : String → Col)
    (hn : ∀ s, (g s).name = s) : l.map (Col.name ∘ g) = l := by
  induction l with
  | nil => rfl
  | cons x xs ih => simp [Function.comp, hn, ih]

theorem find?_map_name (l : List String) (g : String → Col)
    (hn : ∀ s, (g s).name = s) (p : String) (hp : p ∈ l) :
    (l.map g).find? (fun c => c.name == p) = some (g p) := by
  induction l with
  | nil => simp at hp
  | cons x xs ih =>
    by_cases hx : x = p
    · subst hx
      simp [List.find?, hn x]
    · have hb : ((g x).name == p) = false := by simp [hn x, hx]
      rcases List.mem_cons.mp hp with h1 | h1
      · exact absurd h1.symm hx
      · simp only [List.map_cons, List.find?, hb]
        exact ih h1

/-- C1: the wide pivot output has exactly one row per unique employee of
the long input and one numeric column per unique program; the cell for an
(employee, program) pair equals the sum of the hours of all matching long
rows (duplicate assignment rows are additive); and a pair with no matching
row holds 0 rather than a null. -/
theorem pivot_correct (rows : List LongRow) :
    (pivot_table rows).index.Nodup
    ∧ (∀ e, e ∈ (pivot_table rows).index ↔ e ∈ rows.map LongRow.emp)
    ∧ ((pivot_table rows).cols.map Col.name).Nodup
    ∧ (∀ p, p ∈ (pivot_table rows).cols.map Col.name ↔ p ∈ rows.map LongRow.prog)
    ∧ (∀ e p, e ∈ rows.map LongRow.emp → p ∈ rows.map LongRow.prog →
        wideCell (pivot_table rows) e p = sumMatching rows e p)
    ∧ (∀ e p, e ∈ rows.map LongRow.emp → p ∈ rows.map LongRow.prog →
        (∀ r ∈ rows, ¬ (r.emp = e ∧ r.prog = p)) →
        wideCell (pivot_table rows) e p = 0) := by
  have hnames : ((pivot_table rows).cols.map Col.name)
      = uniq (rows.map LongRow.prog) := by
    unfold pivot_table
    simp only [List.map_map]
    exact map_name_comp _ _ (fun _ => rfl)
  have hcell : ∀ e p, e ∈ rows.map LongRow.emp → p ∈ rows.map LongRow.prog →
      wideCell (pivot_table rows) e p = sumMatching rows e p := by
    intro e p he hp
    unfold wideCell numColVals
    have hfind := find?_map_name (uniq (rows.map LongRow.prog))
      (fun q => ⟨q, ColVals.num ((uniq (rows.map LongRow.emp)).map
        (fun e1 => cellVal (pivotAcc rows) e1 q))⟩)
      (fun _ => rfl) p ((mem_uniq _ p).mpr hp)
    show ratGet
        (match List.find? (fun c => c.name == p) (pivot_table rows).cols with
         | some c => match c.vals with
           | ColVals.num l => l
           | ColVals.strs _ => []
         | none => []) (idxOf e (pivot_table rows).index) = _
    rw [show (pivot_table rows).cols = (uniq (rows.map LongRow.prog)).map
      (fun q => ⟨q, ColVals.num ((uniq (rows.map LongRow.emp)).map
        (fun e1 => cellVal (pivotAcc rows) e1 q))⟩) from rfl, hfind]
    show ratGet ((uniq (rows.map LongRow.emp)).map
      (fun e1 => cellVal (pivotAcc rows) e1 p)) (idxOf e (pivot_table rows).index) = _
    rw [show (pivot_table rows).index = uniq (rows.map LongRow.emp) from rfl]
    rw [ratGet_map_idxOf _ _ e ((mem_uniq _ e).mpr he)]
    exact cellVal_pivotAcc rows e p
  refine ⟨nodup_uniq _, fun e => mem_uniq _ e, ?_, ?_, hcell, ?_⟩
  · rw [hnames]
    exact nodup_uniq _
  · intro p
    rw [hnames]
    exact mem_uniq _ p
  · intro e p he hp hnone
    rw [hcell e p he hp]
    have hfil : rows.filter (fun r => r.emp == e && r.prog == p) = [] := by
      rw [List.filter_eq_nil_iff]
      intro r hr
      have := hnone r hr
      rcases not_and_or.mp this with h1 | h1 <;> simp [h1]
    unfold sumMatching
    rw [hfil]
    rfl

/-- Witness for C1: duplicate rows (Alice, Acme, 20) twice plus
(Bob, Globex, 5); the Alice/Acme cell of the pivot equals the summed
matching hours. -/
theorem pivot_correct_witness :
    ("Alice" ∈ [(⟨"Alice", "Acme", 20⟩ : LongRow), ⟨"Alice", "Acme", 20⟩,
        ⟨"Bob", "Globex", 5⟩].map LongRow.emp)
    ∧ ("Acme" ∈ [(⟨"Alice", "Acme", 20⟩ : LongRow), ⟨"Alice", "Acme", 20⟩,
        ⟨"Bob", "Globex", 5⟩].map LongRow.prog)
    ∧ wideCell (pivot_table [⟨"Alice", "Acme", 20⟩, ⟨"Alice", "Acme", 20⟩,
        ⟨"Bob", "Globex", 5⟩]) "Alice" "Acme"
      = sumMatching [⟨"Alice", "Acme", 20⟩, ⟨"Alice", "Acme", 20⟩,
          ⟨"Bob", "Globex", 5⟩] "Alice" "Acme" :=
  ⟨by decide, by decide,
   (pivot_correct [⟨"Alice", "Acme", 20⟩, ⟨"Alice", "Acme", 20⟩,
      ⟨"Bob", "Globex", 5⟩]).2.2.2.2.1 "Alice" "Acme" (by decide) (by decide)⟩

/-- The session state the mutation/history layer works on: the canonical
table, the undo stack and the program revenue registry
(`st.session_state.df / undo_stack / program_mrr`). -/
structure AppState where
  df : Frame
  undoStack : List Frame
  programMrr : List (String × Rat)
deriving DecidableEq

/-- The stack update of `push_to_history`: append a copy of the current
table, then `pop(0)` the oldest snapshot when the length exceeds 10. -/
def pushStack (l : List Frame) (d : Frame) : List Frame :=
  if (l ++ [d]).length > 10 then (l ++ [d]).drop 1 else l ++ [d]

/-- The engine's `push_to_history()`. -/
def push_to_history (st : AppState) : AppState :=
  { st with undoStack := pushStack st.undoStack st.df }

/-- The engine's `undo_last_change()`: pop the most recent snapshot and
make it current; a no-op when the stack is empty. -/
def undo_last_change (st : AppState) : AppState :=
  match st.undoStack.getLast? with
  | some prev => { st with df := prev, undoStack := st.undoStack.dropLast }
  | none => st

/-- A generic mutating operation as the handlers perform it:
`push_to_history()` first, then the change applied to the current table. -/
def applyMutation (m : Frame → Frame) (st : AppState) : AppState :=
  let st1 := push_to_history st
  { st1 with df := m st1.df }

/-- Python dict assignment `d[k] = v` on the revenue registry. -/
def dictSet : List (String × Rat) → String → Rat → List (String × Rat)
  | [], k, v => [(k, v)]
  | q :: qs, k, v => if q.1 = k then (k, v) :: qs else q :: dictSet qs k v

/-- Python `del d[k]` guarded by `if k in d` on the revenue registry. -/
def dictDel (m : List (String × Rat)) (k : String) : List (String × Rat) :=
  m.filter (fun q => q.1 != k)

/-- Pandas `df.drop(columns=[n])`. -/
def dropCol (f : Frame) (n : String) : Frame :=
  { f with cols := f.cols.filter (fun c => c.name != n) }

/-- The Add Program handler: for a non-empty name not already a column,
push history, add a zero column, record the revenue, recompute
utilization; otherwise a no-op. -/
def addProgram (n : String) (v : Rat) (st : AppState) : AppState :=
  if n ≠ "" ∧ st.df.hasCol n = false then
    let st1 := push_to_history st
    { st1 with
      df := recalculate_utilization
        (setNumCol st1.df n (tabulate st1.df.index.length (fun _ => 0)))
      programMrr := dictSet st1.programMrr n v }
  else st

/-- The Delete Program handler: push history, drop the column, delete the
revenue entry when present, recompute utilization. -/
def removeProgram (n : String) (st : AppState) : AppState :=
  let st1 := push_to_history st
  { st1 with
    df := recalculate_utilization (dropCol st1.df n)
    programMrr := dictDel st1.programMrr n }

theorem getLast?_pushStack (l : List Frame) (d : Frame) :
    (pushStack l d).getLast? = some d := by
  unfold pushStack
  split
  · cases l with
    | nil => simp_all
    | cons x xs =>
      rw [List.cons_append, List.drop_one]
      show (xs ++ [d]).getLast? = some d
      exact List.getLast?_concat _
  · exact List.getLast?_concat _

theorem pushStack_ne_nil (l : List Frame) (d : Frame) : pushStack l d ≠ [] := by
  intro h
  have := getLast?_pushStack l d
  rw [h] at this
  simp at this

theorem dropLast_pushStack_small (l : List Frame) (d : Frame)
    (h : ¬ (l ++ [d]).length > 10) : (pushStack l d).dropLast = l := by
  unfold pushStack
  rw [if_neg h]
  exact List.dropLast_concat ..

theorem length_pushStack_le (l : List Frame) (d : Frame) (h : l.length ≤ 10) :
    (pushStack l d).length ≤ 10 := by
  unfold pushStack
  split <;> simp_all

theorem pushStack_full (l : List Frame) (d : Frame) (h : l.length = 10) :
    pushStack l d = l.drop 1 ++ [d] := by
  unfold pushStack
  rw [if_pos (by simp [h])]
  cases l with
  | nil => simp at h
  | cons x xs => simp

theorem lookupMrr_dictSet (m : List (String × Rat)) (k : String) (v : Rat) :
    lookupMrr (dictSet m k v) k = v := by
  induction m with
  | nil => simp [dictSet, lookupMrr, List.find?]
  | cons q qs ih =>
    by_cases h : q.1 = k
    · simp [dictSet, h, lookupMrr, List.find?]
    · have hb : (q.1 == k) = false := by simp [h]
      simp only [dictSet, if_neg h, lookupMrr, List.find?, hb]
      exact ih

theorem lookupMrr_dictDel (m : List (String × Rat)) (k : String) :
    lookupMrr (dictDel m k) k = 0 := by
  induction m with
  | nil => rfl
  | cons q qs ih =>
    by_cases h : q.1 = k
    · have hb : (q.1 != k) = false := by simp [h]
      simp only [dictDel, List.filter_cons, hb]
      exact ih
    · have hb : (q.1 != k) = true := by simp [h]
      have hb2 : (q.1 == k) = false := by simp [h]
      simp only [dictDel, List.filter_cons, hb, if_pos rfl, lookupMrr,
        List.find?, hb2]
      exact ih

/-- C5: a mutating operation pushes a full copy of the pre-mutation table
onto the history stack before applying the change; the stack never grows
beyond 10 snapshots, discarding the oldest (front) snapshot on overflow;
undo pops the most recently pushed snapshot, restoring the pre-mutation
table exactly and shrinking the stack by exactly one; and undo is a no-op
on an empty stack. -/
theorem history_undo_roundtrip (st : AppState) (m : Frame → Frame) :
    (applyMutation m st).undoStack.getLast? = some st.df
    ∧ (applyMutation m st).df = m st.df
    ∧ (st.undoStack.length ≤ 10 → (applyMutation m st).undoStack.length ≤ 10)
    ∧ (st.undoStack.length = 10 →
        (applyMutation m st).undoStack = st.undoStack.drop 1 ++ [st.df])
    ∧ (undo_last_change (applyMutation m st)).df = st.df
    ∧ (undo_last_change (applyMutation m st)).undoStack.length + 1
        = (applyMutation m st).undoStack.length
    ∧ (∀ s : AppState, s.undoStack = [] → undo_last_change s = s) := by
  have hstack : (applyMutation m st).undoStack = pushStack st.undoStack st.df := rfl
  have hlast : (applyMutation m st).undoStack.getLast? = some st.df := by
    rw [hstack]
    exact getLast?_pushStack _ _
  have hundo : undo_last_change (applyMutation m st)
      = { applyMutation m st with
          df := st.df
          undoStack := (applyMutation m st).undoStack.dropLast } := by
    unfold undo_last_change
    rw [hlast]
  refine ⟨hlast, rfl, ?_, ?_, ?_, ?_, ?_⟩
  · intro h
    rw [hstack]
    exact length_pushStack_le _ _ h
  · intro h
    rw [hstack]
    exact pushStack_full _ _ h
  · rw [hundo]
  · rw [hundo]
    show (applyMutation m st).undoStack.dropLast.length + 1 = _
    have hne : (applyMutation m st).undoStack ≠ [] := by
      rw [hstack]
      exact pushStack_ne_nil _ _
    rw [List.length_dropLast]
    have : 0 < (applyMutation m st).undoStack.length := List.length_pos.mpr hne
    omega
  · intro s hs
    unfold undo_last_change
    rw [hs]
    rfl

/-- Witness for C5: with a stack already at the 10-snapshot bound, a
mutation evicts the oldest snapshot and undo restores the pre-mutation
table. -/
theorem history_undo_roundtrip_witness :
    ((⟨⟨[], []⟩, List.replicate 10 ⟨[], []⟩, []⟩ : AppState).undoStack.length = 10)
    ∧ (applyMutation (fun f => f)
        ⟨⟨[], []⟩, List.replicate 10 ⟨[], []⟩, []⟩).undoStack
      = (⟨⟨[], []⟩, List.replicate 10 ⟨[], []⟩, []⟩ : AppState).undoStack.drop 1
          ++ [(⟨⟨[], []⟩, List.replicate 10 ⟨[], []⟩, []⟩ : AppState).df]
    ∧ (undo_last_change (applyMutation (fun f => f)
        ⟨⟨[], []⟩, List.replicate 10 ⟨[], []⟩, []⟩)).df
      = (⟨⟨[], []⟩, List.replicate 10 ⟨[], []⟩, []⟩ : AppState).df :=
  ⟨by decide,
   (history_undo_roundtrip ⟨⟨[], []⟩, List.replicate 10 ⟨[], []⟩, []⟩
      (fun f => f)).2.2.2.1 (by decide),
   (history_undo_roundtrip ⟨⟨[], []⟩, List.replicate 10 ⟨[], []⟩, []⟩
      (fun f => f)).2.2.2.2.1⟩

/-- C10: undo restores only the canonical table and leaves the revenue
registry untouched — after add-program followed by undo the program column
is gone (the table equals the pre-add table, which lacked it) but its
revenue entry remains in the registry; after remove-program followed by
undo the column is restored (the table equals the pre-remove table) but
the revenue entry stays deleted, so the registry maps the program to the
default 0. -/
theorem undo_registry_frame (st : AppState) (n : String) (v : Rat) :
    (n ≠ "" → st.df.hasCol n = false →
       (undo_last_change (addProgram n v st)).df = st.df
       ∧ (undo_last_change (addProgram n v st)).df.hasCol n = false
       ∧ lookupMrr (undo_last_change (addProgram n v st)).programMrr n = v)
    ∧ ((undo_last_change (removeProgram n st)).df = st.df
       ∧ (st.df.hasCol n = true →
           (undo_last_change (removeProgram n st)).df.hasCol n = true)
       ∧ lookupMrr (undo_last_change (removeProgram n st)).programMrr n = 0) := by
  constructor
  · intro hn hcol
    have hadd : addProgram n v st
        = { df := recalculate_utilization
              (setNumCol st.df n (tabulate st.df.index.length (fun _ => 0)))
            undoStack := pushStack st.undoStack st.df
            programMrr := dictSet st.programMrr n v } := by
      unfold addProgram
      rw [if_pos ⟨hn, hcol⟩]
      rfl
    have hlast : (addProgram n v st).undoStack.getLast? = some st.df := by
      rw [hadd]
      exact getLast?_pushStack _ _
    have hundo : undo_last_change (addProgram n v st)
        = { addProgram n v st with
            df := st.df
            undoStack := (addProgram n v st).undoStack.dropLast } := by
      unfold undo_last_change
      rw [hlast]
    rw [hundo]
    refine ⟨rfl, hcol, ?_⟩
    rw [hadd]
    exact lookupMrr_dictSet _ _ _
  · have hrem : removeProgram n st
        = { df := recalculate_utilization (dropCol st.df n)
            undoStack := pushStack st.undoStack st.df
            programMrr := dictDel st.programMrr n } := rfl
    have hlast : (removeProgram n st).undoStack.getLast? = some st.df := by
      rw [hrem]
      exact getLast?_pushStack _ _
    have hundo : undo_last_change (removeProgram n st)
        = { removeProgram n st with
            df := st.df
            undoStack := (removeProgram n st).undoStack.dropLast } := by
      unfold undo_last_change
      rw [hlast]
    rw [hundo]
    refine ⟨rfl, fun h => h, ?_⟩
    rw [hrem]
    exact lookupMrr_dictDel _ _

/-- Witness for C10: adding program Q with revenue 5 to a one-column table
and undoing leaves the table without Q but keeps its revenue entry;
removing existing column P and undoing restores the table while its
revenue entry stays deleted. -/
theorem undo_registry_frame_witness :
    (("Q" : String) ≠ "")
    ∧ ((⟨⟨["A"], [⟨"P", ColVals.num [3]⟩]⟩, [], [("P", 7)]⟩ : AppState).df.hasCol "Q"
        = false)
    ∧ ((undo_last_change (addProgram "Q" 5
          ⟨⟨["A"], [⟨"P", ColVals.num [3]⟩]⟩, [], [("P", 7)]⟩)).df
        = (⟨⟨["A"], [⟨"P", ColVals.num [3]⟩]⟩, [], [("P", 7)]⟩ : AppState).df
       ∧ (undo_last_change (addProgram "Q" 5
            ⟨⟨["A"], [⟨"P", ColVals.num [3]⟩]⟩, [], [("P", 7)]⟩)).df.hasCol "Q"
          = false
       ∧ lookupMrr (undo_last_change (addProgram "Q" 5
            ⟨⟨["A"], [⟨"P", ColVals.num [3]⟩]⟩, [], [("P", 7)]⟩)).programMrr "Q" = 5)
    ∧ lookupMrr (undo_last_change (removeProgram "P"
          ⟨⟨["A"], [⟨"P", ColVals.num [3]⟩]⟩, [], [("P", 7)]⟩)).programMrr "P" = 0 :=
  ⟨by decide, by decide,
   (undo_registry_frame ⟨⟨["A"], [⟨"P", ColVals.num [3]⟩]⟩, [], [("P", 7)]⟩
      "Q" 5).1 (by decide) (by decide),
   ((undo_registry_frame ⟨⟨["A"], [⟨"P", ColVals.num [3]⟩]⟩, [], [("P", 7)]⟩
      "P" 7).2).2.2⟩

end Staffing
